import Mathlib

/-
Shallow embedding of rq_scheduler/scheduler.py (class Scheduler).

Modelling conventions:
- Timestamps (unix epochs, `to_unix`/`from_unix` of the time codec) are `Int`.
- Job ids and queue names are opaque handles, modelled as `Nat`.
- Cron expressions are opaque handles (`Nat`); the external cron evaluator
  `get_next_scheduled_time` is passed in as a parameter `cronNext : Nat → Int`.
- The redis sorted set `rq:scheduler:scheduled_jobs` is an association list
  of (member, score) pairs; ZADD is an in-place upsert, ZREM removes the
  member, ZSCORE looks the member up, ZCOUNT/ZRANGEBYSCORE filter by score.
- Job records (external `rq.job.Job` persistence) are an association list
  keyed by job id; `job.meta` is flattened into the fields the scheduler
  reads: interval, repeat, cron_string.
- Exceptions are modelled as explicit error results; since redis effects are
  not rolled back on a Python exception, fallible operations return the store
  alongside the error.
-/

namespace RqScheduler

/-- Association-list lookup keyed by `Nat` (redis key / sorted-set member lookup). -/
def listLookup {α : Type} : List (Nat × α) → Nat → Option α
  | [], _ => none
  | e :: rest, k => if e.1 = k then some e.2 else listLookup rest k

/-- Association-list upsert: replace the value at the key in place, or append. -/
def listUpsert {α : Type} : List (Nat × α) → Nat → α → List (Nat × α)
  | [], k, v => [(k, v)]
  | e :: rest, k, v => if e.1 = k then (k, v) :: rest else e :: listUpsert rest k v

/-- The keys of an association list. -/
def keys {α : Type} (l : List (Nat × α)) : List Nat := l.map Prod.fst

/-- Well-formedness of a redis hash / sorted set: each member appears at most once. -/
def keysNodup {α : Type} (l : List (Nat × α)) : Prop := (keys l).Nodup

/-- The scheduled-jobs sorted set: (job_id, due_at score) pairs. -/
abbrev ZSet := List (Nat × Int)

/-- redis ZADD on the scheduled-jobs key: idempotent upsert keyed by member. -/
def zaddUpdate (z : ZSet) (m : Nat) (s : Int) : ZSet := listUpsert z m s

/-- redis ZREM: remove the member from the sorted set. -/
def zrem : ZSet → Nat → ZSet
  | [], _ => []
  | e :: rest, m => if e.1 = m then zrem rest m else e :: zrem rest m

/-- redis ZSCORE: the member's score, or absent. -/
def zscore (z : ZSet) (m : Nat) : Option Int := listLookup z m

/-- The entries of the sorted set carrying the given member. -/
def entriesFor : ZSet → Nat → ZSet
  | [], _ => []
  | e :: rest, m => if e.1 = m then e :: entriesFor rest m else entriesFor rest m

/-- Insert one entry into a score-sorted list, keeping it sorted by score. -/
def insertByScore (e : Nat × Int) : ZSet → ZSet
  | [] => [e]
  | x :: xs => if e.2 ≤ x.2 then e :: x :: xs else x :: insertByScore e xs

/-- Sort entries ascending by score, as redis range queries return them. -/
def sortByScore : ZSet → ZSet
  | [] => []
  | x :: xs => insertByScore x (sortByScore xs)

/-- The score window used by count/get_jobs: 0 <= score <= until
    (`rationalize_until(None)` is +inf, modelled as `none` = no upper bound). -/
def rangePred (untilT : Option Int) (s : Int) : Bool :=
  0 ≤ s && (match untilT with | none => true | some u => s ≤ u)

/-- redis ZRANGEBYSCORE scheduled_jobs_key 0 until: matching entries ascending by score. -/
def zrangebyscore (z : ZSet) (untilT : Option Int) : ZSet :=
  sortByScore (z.filter (fun e => rangePred untilT e.2))

/-- redis ZCOUNT scheduled_jobs_key 0 until. -/
def zcount (z : ZSet) (untilT : Option Int) : Nat :=
  (z.filter (fun e => rangePred untilT e.2)).length

/-- A job record, as the scheduler reads it: identity, origin queue, and the
    meta keys it consumes (meta.interval, meta.repeat, meta.cron_string),
    plus result_ttl which schedule() defaults for periodic jobs. -/
structure Job where
  id : Nat
  origin : Nat
  interval : Option Int
  «repeat» : Option Int
  cron_string : Option Nat
  result_ttl : Option Int
  deriving DecidableEq

/-- The coordination-store state the scheduler touches: persisted job records,
    the scheduled-jobs sorted set, the external dispatch queue (jobs handed to
    rq's Queue.enqueue_job), and the scheduler liveness key's TTL. -/
structure Store where
  jobs : List (Nat × Job)
  zset : ZSet
  queued : List Job
  schedulerExpiry : Option Int
  deriving DecidableEq

/-- Errors the scheduler raises (ValueError messages in the source). -/
inductive SchedErr
  | repeatWithoutInterval
  | notScheduled
  | alreadyRunning
  deriving DecidableEq

/-- Python truthiness of an optional int (None and 0 are falsy). -/
def truthyInt : Option Int → Bool
  | none => false
  | some i => i != 0

/-- rq Job.fetch: look the record up, absent means NoSuchJobError. -/
def fetchJob (js : List (Nat × Job)) (id : Nat) : Option Job := listLookup js id

/-- rq Job.save: persist the record under its id. -/
def saveJob (js : List (Nat × Job)) (j : Job) : List (Nat × Job) := listUpsert js j.id j

/-- Scheduler.cancel: ZREM the job id from the scheduled-jobs set
    (both the Job-instance and the job-id branches do exactly this). -/
def cancel (st : Store) (jobId : Nat) : Store :=
  { st with zset := zrem st.zset jobId }

/-- Scheduler.enqueue_at: create and save the job record, then ZADD its id
    at the scheduled time. -/
def enqueue_at (st : Store) (scheduled_time : Int) (jobId : Nat) : Store :=
  let job : Job :=
    { id := jobId, origin := 0, interval := none, «repeat» := none,
      cron_string := none, result_ttl := none }
  { st with jobs := saveJob st.jobs job,
            zset := zaddUpdate st.zset job.id scheduled_time }

/-- Scheduler.schedule: build the job in memory (commit=False), set meta,
    validate repeat-without-interval, then save and ZADD. The raise happens
    before job.save() and before the ZADD, so an error leaves the store
    untouched. (Source message: a job cannot repeat without an interval.) -/
def schedule (st : Store) (scheduled_time : Int) (jobId : Nat)
    (interval : Option Int) (rep : Option Int) (result_ttl : Option Int) :
    Option SchedErr × Store :=
  let result_ttl := if interval.isSome && result_ttl.isNone then some (-1) else result_ttl
  let job : Job :=
    { id := jobId, origin := 0, interval := interval, «repeat» := rep,
      cron_string := none, result_ttl := result_ttl }
  if truthyInt rep && interval.isNone then
    (some .repeatWithoutInterval, st)
  else
    (none, { st with jobs := saveJob st.jobs job,
                     zset := zaddUpdate st.zset job.id scheduled_time })

/-- Scheduler.count: ZCOUNT scheduled_jobs_key 0 until. -/
def count (st : Store) (untilT : Option Int) : Nat := zcount st.zset untilT

/-- The fetch loop of Scheduler.get_jobs over the range-query result: found
    records are collected in order; an id whose record is missing
    (NoSuchJobError) is cancelled from the scheduled-jobs set and skipped. -/
def get_jobs_go (js : List (Nat × Job)) : ZSet → ZSet → List Job × ZSet
  | [], z => ([], z)
  | e :: rest, z =>
    match fetchJob js e.1 with
    | some j =>
      let r := get_jobs_go js rest z
      (j :: r.1, r.2)
    | none => get_jobs_go js rest (zrem z e.1)

/-- Scheduler.get_jobs (default path: with_times=False, no offset/length):
    ZRANGEBYSCORE 0 until, then fetch each record, purging orphans. -/
def get_jobs (st : Store) (untilT : Option Int) : List Job × Store :=
  let ids := zrangebyscore st.zset untilT
  let r := get_jobs_go st.jobs ids st.zset
  (r.1, { st with zset := r.2 })

/-- Scheduler.get_jobs_to_queue: get_jobs bounded by the current time. -/
def get_jobs_to_queue (st : Store) (now : Int) : List Job × Store :=
  get_jobs st (some now)

/-- The in-memory repeat decrement at the top of Scheduler.enqueue_job:
    `if repeat: job.meta['repeat'] = int(repeat) - 1` (0 and None are falsy). -/
def decRepeat (j : Job) : Job :=
  match j.«repeat» with
  | none => j
  | some r => if r ≠ 0 then { j with «repeat» := some (r - 1) } else j

/-- Scheduler.enqueue_job: read recurrence meta, decrement the repeat counter
    if set and non-zero, dispatch the job to its queue, ZREM it from the
    scheduled-jobs set, then reinsert: with an interval, at now + interval
    unless the counter has reached 0; with a cron string, at the cron
    evaluator's next time unless the counter has reached 0. -/
def enqueue_job (now : Int) (cronNext : Nat → Int) (st : Store) (job0 : Job) : Store :=
  let interval := job0.interval
  let rep := job0.«repeat»
  let cron_string := job0.cron_string
  let job := decRepeat job0
  let st1 : Store := { st with queued := st.queued ++ [job] }
  let st2 : Store := { st1 with zset := zrem st1.zset job.id }
  if truthyInt interval then
    if rep.isSome && (job.«repeat» == some 0) then st2
    else { st2 with zset := zaddUpdate st2.zset job.id (now + interval.getD 0) }
  else if cron_string.isSome then
    if rep.isSome && (job.«repeat» == some 0) then st2
    else { st2 with zset := zaddUpdate st2.zset job.id (cronNext (cron_string.getD 0)) }
  else st2

/-- One step of the dispatch pass with a fallible dispatch queue: `fail`
    says which job ids the external Queue.enqueue_job raises on. The raise
    happens before any store mutation of this job (the repeat decrement is
    in-memory only), so on failure the store is returned unchanged and the
    exception (the failing job id) propagates. -/
def enqueue_jobF (fail : Nat → Bool) (now : Int) (cronNext : Nat → Int)
    (st : Store) (job0 : Job) : Option Nat × Store :=
  let job := decRepeat job0
  if fail job.id then (some job.id, st)
  else (none, enqueue_job now cronNext st job0)

/-- The per-job loop of Scheduler.enqueue_jobs: `for job in jobs:
    self.enqueue_job(job)` with no exception handling, so the first raise
    aborts the loop and propagates. -/
def enqueue_jobs_loop (fail : Nat → Bool) (now : Int) (cronNext : Nat → Int) :
    Store → List Job → Option Nat × Store
  | st, [] => (none, st)
  | st, j :: rest =>
    let r := enqueue_jobF fail now cronNext st j
    match r.1 with
    | some e => (some e, r.2)
    | none => enqueue_jobs_loop fail now cronNext r.2 rest

/-- The whole pass applied without failures, job by job in order. -/
def processAll (now : Int) (cronNext : Nat → Int) (st : Store) (jobs : List Job) : Store :=
  jobs.foldl (enqueue_job now cronNext) st

/-- Scheduler.enqueue_jobs: fetch the due jobs (score at most now), run the
    per-job loop, and on a clean pass refresh the scheduler key's expiry to
    interval + 10. A raise inside the loop propagates before the refresh. -/
def enqueue_jobs (fail : Nat → Bool) (now : Int) (cronNext : Nat → Int)
    (interval : Int) (st : Store) : Option Nat × Store :=
  let fetched := get_jobs_to_queue st now
  let r := enqueue_jobs_loop fail now cronNext fetched.2 fetched.1
  match r.1 with
  | some e => (some e, r.2)
  | none => (none, { r.2 with schedulerExpiry := some (interval + 10) })

/-- The duration Scheduler.run hands to time.sleep at the end of a tick:
    `self._interval - (time.time() - start_time)`, with no clamping. -/
def run_sleep_duration (interval elapsed : Int) : Int :=
  interval - elapsed

/-- The scheduler liveness key rq:scheduler: a hash with birth and optional
    death timestamps, plus the TTL set on the key. -/
structure Liveness where
  record : Option (Int × Option Int)
  expiry : Option Int
  deriving DecidableEq

/-- The guard of Scheduler.register_birth: the key exists and has no death
    field, meaning an active scheduler already registered. -/
def livenessActive (lv : Liveness) : Bool :=
  match lv.record with
  | none => false
  | some r => r.2.isNone

/-- Scheduler.register_birth: raise if an active record exists; otherwise in
    one pipeline delete the key, write a fresh birth timestamp, and set the
    key to expire interval + 10 seconds later. -/
def register_birth (interval : Int) (now : Int) (lv : Liveness) : Except SchedErr Liveness :=
  if livenessActive lv then .error .alreadyRunning
  else .ok { record := some (now, none), expiry := some (interval + 10) }

/-- Scheduler.change_execution_time, with the redis optimistic watch/commit
    capability made explicit: each trace element is the scheduled-jobs set as
    observed at one attempt, paired with whether the watched key was modified
    under that attempt (WatchError). An attempt checks membership (absent
    raises), then commits the ZADD; on a conflict the handler re-checks
    membership against the next observed state and retries only if the job is
    still present. `pending` marks a trace that ends mid-retry. -/
inductive CetResult
  | ok (z : ZSet)
  | notScheduled
  | pending
  deriving DecidableEq

/-- The watch/retry loop of change_execution_time over an observation trace:
    each attempt checks membership (absent raises), then commits the ZADD; on
    a WatchError conflict the handler re-checks membership against the next
    observed state and retries only if the job is still present. -/
def change_execution_time (jobId : Nat) (newTime : Int) :
    List (ZSet × Bool) → CetResult
  | [] => .pending
  | [a] =>
    if (zscore a.1 jobId).isNone then .notScheduled
    else if a.2 then .pending
    else .ok (zaddUpdate a.1 jobId newTime)
  | a :: b :: rest =>
    if (zscore a.1 jobId).isNone then .notScheduled
    else if a.2 then
      if (zscore b.1 jobId).isNone then .notScheduled
      else change_execution_time jobId newTime (b :: rest)
    else .ok (zaddUpdate a.1 jobId newTime)

/-- Fuel-bounded simulation of the run loop's effect on a single recurring
    job: each round, if the job is still in the scheduled-jobs set it fires
    at its due time (the loop enqueues every entry whose score has passed),
    and the next round sees the job record as the queue persisted it, with
    the decremented counter. Returns the number of firings. -/
def totalFirings (cronNext : Nat → Int) : Nat → Store → Job → Nat
  | 0, _, _ => 0
  | fuel + 1, st, j =>
    match zscore st.zset j.id with
    | none => 0
    | some due => 1 + totalFirings cronNext fuel (enqueue_job due cronNext st j) (decRepeat j)

/-- A job with interval 10 seconds and repeat 2, as schedule() persists it
    (result_ttl defaulted to -1 for periodic jobs). -/
def jobFixed : Job :=
  { id := 1, origin := 0, interval := some 10, «repeat» := some 2,
    cron_string := none, result_ttl := some (-1) }

/-- The store holding jobFixed scheduled at time 100. -/
def storeFixed : Store :=
  { jobs := [(1, jobFixed)], zset := [(1, 100)], queued := [], schedulerExpiry := none }

/-- A plain one-shot job record with the given id. -/
def plainJob (id : Nat) : Job :=
  { id := id, origin := 0, interval := none, «repeat» := none,
    cron_string := none, result_ttl := none }

/-- Two due one-shot jobs (ids 1 and 2, due at 5 and 6) with their records
    present; used to exercise a dispatch pass. -/
def storeTwoDue : Store :=
  { jobs := [(1, plainJob 1), (2, plainJob 2)], zset := [(1, 5), (2, 6)],
    queued := [], schedulerExpiry := none }

/-- A store whose scheduled-jobs set holds id 1 at score 5 while no job
    record for id 1 exists (an orphaned entry). -/
def storeOrphan : Store :=
  { jobs := [], zset := [(1, 5)], queued := [], schedulerExpiry := none }

theorem listLookup_listUpsert_self {α : Type} (l : List (Nat × α)) (k : Nat) (v : α) :
    listLookup (listUpsert l k v) k = some v := by
  induction l with
  | nil => simp [listUpsert, listLookup]
  | cons e rest ih =>
    by_cases he : e.1 = k
    · simp [listUpsert, he, listLookup]
    · simp [listUpsert, he, listLookup, ih]

theorem listLookup_listUpsert_other {α : Type} (l : List (Nat × α)) (k k2 : Nat) (v : α)
    (h : k2 ≠ k) : listLookup (listUpsert l k v) k2 = listLookup l k2 := by
  induction l with
  | nil => simp [listUpsert, listLookup, Ne.symm h]
  | cons e rest ih =>
    by_cases he : e.1 = k
    · simp [listUpsert, he, listLookup, Ne.symm h]
    · simp [listUpsert, he, listLookup, ih]

theorem keys_cons {α : Type} (e : Nat × α) (l : List (Nat × α)) :
    keys (e :: l) = e.1 :: keys l := rfl

theorem listLookup_eq_none_iff {α : Type} (l : List (Nat × α)) (k : Nat) :
    listLookup l k = none ↔ k ∉ keys l := by
  induction l with
  | nil => simp [listLookup, keys]
  | cons e rest ih =>
    rw [listLookup, keys_cons, List.mem_cons]
    by_cases he : e.1 = k
    · rw [if_pos he]
      simp [he]
    · rw [if_neg he, ih]
      constructor
      · intro h hc
        rcases hc with hc | hc
        · exact he hc.symm
        · exact h hc
      · intro h hc
        exact h (Or.inr hc)

theorem mem_keys_listUpsert {α : Type} (l : List (Nat × α)) (k m : Nat) (v : α) :
    m ∈ keys (listUpsert l k v) ↔ m ∈ keys l ∨ m = k := by
  induction l with
  | nil => simp [listUpsert, keys]
  | cons e rest ih =>
    by_cases he : e.1 = k
    · rw [listUpsert, if_pos he, keys_cons, keys_cons, List.mem_cons, List.mem_cons, he]
      tauto
    · rw [listUpsert, if_neg he, keys_cons, keys_cons, List.mem_cons, List.mem_cons, ih]
      tauto

theorem keysNodup_listUpsert {α : Type} (l : List (Nat × α)) (k : Nat) (v : α)
    (h : keysNodup l) : keysNodup (listUpsert l k v) := by
  induction l with
  | nil => simp [listUpsert, keysNodup, keys]
  | cons e rest ih =>
    rw [keysNodup, keys, List.map_cons, List.nodup_cons] at h
    by_cases he : e.1 = k
    · rw [listUpsert, if_pos he, keysNodup, keys, List.map_cons, List.nodup_cons]
      exact ⟨he ▸ h.1, h.2⟩
    · rw [listUpsert, if_neg he, keysNodup, keys, List.map_cons, List.nodup_cons]
      refine ⟨?_, ih h.2⟩
      intro hmem
      rcases (mem_keys_listUpsert rest k e.1 v).mp hmem with h1 | h1
      · exact h.1 h1
      · exact he h1

theorem entriesFor_eq_nil_of_not_mem (z : ZSet) (m : Nat)
    (h : listLookup z m = none) : entriesFor z m = [] := by
  induction z with
  | nil => rfl
  | cons e rest ih =>
    rw [listLookup] at h
    by_cases he : e.1 = m
    · rw [if_pos he] at h
      cases h
    · rw [if_neg he] at h
      rw [entriesFor, if_neg he]
      exact ih h

theorem entriesFor_listUpsert_self (z : ZSet) (k : Nat) (v : Int)
    (h : keysNodup z) : entriesFor (listUpsert z k v) k = [(k, v)] := by
  induction z with
  | nil => simp [listUpsert, entriesFor]
  | cons e rest ih =>
    rw [keysNodup, keys, List.map_cons, List.nodup_cons] at h
    by_cases he : e.1 = k
    · rw [listUpsert, if_pos he, entriesFor, if_pos rfl]
      have hnone : listLookup rest k = none :=
        (listLookup_eq_none_iff rest k).mpr (he ▸ h.1)
      rw [entriesFor_eq_nil_of_not_mem rest k hnone]
    · rw [listUpsert, if_neg he, entriesFor, if_neg he]
      exact ih h.2

theorem entriesFor_of_nodup_lookup (z : ZSet) (m : Nat) (s : Int)
    (hnd : keysNodup z) (h : listLookup z m = some s) :
    entriesFor z m = [(m, s)] := by
  induction z with
  | nil => cases h
  | cons e rest ih =>
    rw [keysNodup, keys, List.map_cons, List.nodup_cons] at hnd
    rw [listLookup] at h
    by_cases he : e.1 = m
    · rw [if_pos he] at h
      have hnone : listLookup rest m = none :=
        (listLookup_eq_none_iff rest m).mpr (he ▸ hnd.1)
      rw [entriesFor, if_pos he, entriesFor_eq_nil_of_not_mem rest m hnone]
      cases h
      rw [← he]
    · rw [if_neg he] at h
      rw [entriesFor, if_neg he]
      exact ih hnd.2 h

theorem zscore_zrem_self (z : ZSet) (m : Nat) : zscore (zrem z m) m = none := by
  induction z with
  | nil => rfl
  | cons e rest ih =>
    by_cases he : e.1 = m
    · rw [zrem, if_pos he]
      exact ih
    · rw [zrem, if_neg he]
      rw [zscore, listLookup, if_neg he]
      exact ih

theorem zscore_zrem_other (z : ZSet) (m m2 : Nat) (h : m2 ≠ m) :
    zscore (zrem z m) m2 = zscore z m2 := by
  induction z with
  | nil => rfl
  | cons e rest ih =>
    by_cases he : e.1 = m
    · rw [zrem, if_pos he]
      simp only [zscore]
      conv_rhs => rw [listLookup, if_neg (by rw [he]; exact Ne.symm h)]
      exact ih
    · by_cases he2 : e.1 = m2
      · rw [zrem, if_neg he, zscore, listLookup, if_pos he2, zscore, listLookup, if_pos he2]
      · rw [zrem, if_neg he, zscore, listLookup, if_neg he2, zscore, listLookup, if_neg he2]
        exact ih

theorem zrem_eq_self_of_absent (z : ZSet) (m : Nat)
    (h : zscore z m = none) : zrem z m = z := by
  induction z with
  | nil => rfl
  | cons e rest ih =>
    simp only [zscore, listLookup] at h
    by_cases he : e.1 = m
    · rw [if_pos he] at h
      cases h
    · rw [if_neg he] at h
      rw [zrem, if_neg he, ih h]

theorem zrem_length_add (z : ZSet) (m : Nat) :
    (zrem z m).length + (entriesFor z m).length = z.length := by
  induction z with
  | nil => rfl
  | cons e rest ih =>
    by_cases he : e.1 = m
    · rw [zrem, if_pos he, entriesFor, if_pos he]
      simp only [List.length_cons]
      omega
    · rw [zrem, if_neg he, entriesFor, if_neg he]
      simp only [List.length_cons]
      omega

theorem length_insertByScore (e : Nat × Int) (l : ZSet) :
    (insertByScore e l).length = l.length + 1 := by
  induction l with
  | nil => rfl
  | cons x xs ih =>
    by_cases h : e.2 ≤ x.2
    · rw [insertByScore, if_pos h]
      rfl
    · rw [insertByScore, if_neg h]
      simp only [List.length_cons, ih]

theorem length_sortByScore (l : ZSet) : (sortByScore l).length = l.length := by
  induction l with
  | nil => rfl
  | cons x xs ih =>
    rw [sortByScore, length_insertByScore, ih]
    rfl

theorem mem_insertByScore (x e : Nat × Int) (l : ZSet)
    (h : x ∈ insertByScore e l) : x = e ∨ x ∈ l := by
  induction l with
  | nil =>
    rw [insertByScore] at h
    simp at h
    exact Or.inl h
  | cons y ys ih =>
    by_cases hle : e.2 ≤ y.2
    · rw [insertByScore, if_pos hle] at h
      exact List.mem_cons.mp h
    · rw [insertByScore, if_neg hle] at h
      rcases List.mem_cons.mp h with h2 | h2
      · exact Or.inr (h2 ▸ List.mem_cons_self y ys)
      · rcases ih h2 with h3 | h3
        · exact Or.inl h3
        · exact Or.inr (List.mem_cons_of_mem y h3)

theorem mem_sortByScore (x : Nat × Int) (l : ZSet)
    (h : x ∈ sortByScore l) : x ∈ l := by
  induction l with
  | nil => cases h
  | cons y ys ih =>
    rw [sortByScore] at h
    rcases mem_insertByScore x y (sortByScore ys) h with h2 | h2
    · simp [h2]
    · simp [ih h2]

theorem get_jobs_go_length (js : List (Nat × Job)) (ids : ZSet) (z : ZSet)
    (h : ∀ e ∈ ids, (fetchJob js e.1).isSome = true) :
    (get_jobs_go js ids z).1.length = ids.length := by
  induction ids generalizing z with
  | nil => rfl
  | cons e rest ih =>
    have he := h e (List.mem_cons_self e rest)
    obtain ⟨j, hj⟩ := Option.isSome_iff_exists.mp he
    rw [get_jobs_go, hj]
    simp only [List.length_cons]
    rw [ih z (fun x hx => h x (List.mem_cons_of_mem e hx))]

theorem decRepeat_id (j : Job) : (decRepeat j).id = j.id := by
  cases hj : j.«repeat» with
  | none => simp [decRepeat, hj]
  | some r =>
    by_cases h : r = 0
    · simp [decRepeat, hj, h]
    · simp [decRepeat, hj, h]

/-- C2 (code bug): at a tick where processing took longer than the poll
    interval (interval 60, elapsed 70), the duration Scheduler.run hands to
    time.sleep is interval - elapsed = -10: negative, not the
    max(0, interval - elapsed) = 0 the specification states. -/
theorem C2_sleep_duration_negative :
    run_sleep_duration 60 70 = -10 ∧ run_sleep_duration 60 70 < 0 ∧
    run_sleep_duration 60 70 ≠ max 0 (60 - 70) := by
  refine ⟨rfl, by decide, by decide⟩

/-- C5: schedule with a non-zero repeat argument and no interval argument
    raises the validation error before any store write: the result is the
    error together with the input store unchanged — no job record saved, no
    schedule entry added. -/
theorem C5_schedule_repeat_validation (st : Store) (t : Int) (jobId : Nat)
    (r : Int) (rttl : Option Int) (h : r ≠ 0) :
    schedule st t jobId none (some r) rttl = (some .repeatWithoutInterval, st) := by
  have hb : (r != 0) = true := by simpa [bne_iff_ne] using h
  simp [schedule, truthyInt, hb]

/-- C5 witness: schedule(time=50, id=3, repeat=3) without interval errors and
    leaves the store exactly as it was. -/
theorem C5_schedule_repeat_validation_witness :
    schedule storeTwoDue 50 3 none (some 3) none =
      (some .repeatWithoutInterval, storeTwoDue) :=
  C5_schedule_repeat_validation storeTwoDue 50 3 3 none (by decide)

/-- C8: register_birth raises already-running exactly when a liveness record
    with no death field exists; otherwise it replaces any stale record with a
    fresh birth timestamp and sets the key to expire interval + 10 seconds
    later (the poll interval plus a fixed grace period). -/
theorem C8_register_birth (interval now : Int) (lv : Liveness) :
    (livenessActive lv = true ↔ ∃ b, lv.record = some (b, none)) ∧
    (register_birth interval now lv = .error .alreadyRunning ↔ livenessActive lv = true) ∧
    (livenessActive lv = false →
      register_birth interval now lv =
        .ok { record := some (now, none), expiry := some (interval + 10) }) := by
  refine ⟨?_, ?_, ?_⟩
  · cases hr : lv.record with
    | none => simp [livenessActive, hr]
    | some r =>
      cases r with
      | mk b d =>
        cases d with
        | none => simp [livenessActive, hr]
        | some dv => simp [livenessActive, hr]
  · by_cases h : livenessActive lv
    · simp [register_birth, h]
    · simp [register_birth, h]
  · intro h
    simp [register_birth, h]

/-- C8 witness: an active record (no death field) makes register_birth raise,
    and a dead record is reset with a fresh birth and TTL interval + 10. -/
theorem C8_register_birth_witness :
    register_birth 60 100 { record := some (5, none), expiry := some 70 } =
      .error .alreadyRunning ∧
    register_birth 60 100 { record := some (5, some 50), expiry := some 70 } =
      .ok { record := some (100, none), expiry := some 70 } :=
  ⟨((C8_register_birth 60 100 { record := some (5, none), expiry := some 70 }).2.1).mpr rfl,
   (C8_register_birth 60 100 { record := some (5, some 50), expiry := some 70 }).2.2 rfl⟩

/-- C9: insertion into the schedule store is an idempotent upsert keyed by
    job_id: after enqueue_at of the same job_id at t1 and then t2, exactly
    one entry for that id remains, its score is t2 (the latest insertion),
    and every other member's score is untouched. -/
theorem C9_enqueue_at_upsert (st : Store) (t1 t2 : Int) (jobId : Nat)
    (h : keysNodup st.zset) :
    entriesFor (enqueue_at (enqueue_at st t1 jobId) t2 jobId).zset jobId = [(jobId, t2)] ∧
    zscore (enqueue_at (enqueue_at st t1 jobId) t2 jobId).zset jobId = some t2 ∧
    (∀ m, m ≠ jobId →
      zscore (enqueue_at (enqueue_at st t1 jobId) t2 jobId).zset m = zscore st.zset m) := by
  have hz : (enqueue_at (enqueue_at st t1 jobId) t2 jobId).zset =
      listUpsert (listUpsert st.zset jobId t1) jobId t2 := rfl
  refine ⟨?_, ?_, ?_⟩
  · rw [hz]
    exact entriesFor_listUpsert_self _ jobId t2 (keysNodup_listUpsert _ jobId t1 h)
  · rw [hz]
    exact listLookup_listUpsert_self _ jobId t2
  · intro m hm
    rw [hz]
    show listLookup (listUpsert (listUpsert st.zset jobId t1) jobId t2) m = zscore st.zset m
    rw [listLookup_listUpsert_other _ jobId m t2 hm, listLookup_listUpsert_other _ jobId m t1 hm]
    rfl

/-- C9 witness: inserting id 3 at 7 then at 8 into a two-entry store leaves
    exactly one entry for id 3, scored 8. -/
theorem C9_enqueue_at_upsert_witness :
    entriesFor (enqueue_at (enqueue_at storeTwoDue 7 3) 8 3).zset 3 = [(3, 8)] :=
  (C9_enqueue_at_upsert storeTwoDue 7 8 3 (by unfold keysNodup; decide)).1

/-- C10: cancel never raises (it is a total function) and is idempotent:
    cancelling an absent job id leaves the store unchanged; cancelling a
    present job removes exactly that entry (one entry fewer, its score gone)
    while every other member keeps its score; a second cancel is a no-op. -/
theorem C10_cancel_idempotent (st : Store) (jobId : Nat) :
    (zscore st.zset jobId = none → cancel st jobId = st) ∧
    zscore (cancel st jobId).zset jobId = none ∧
    (∀ m, m ≠ jobId → zscore (cancel st jobId).zset m = zscore st.zset m) ∧
    cancel (cancel st jobId) jobId = cancel st jobId ∧
    (keysNodup st.zset → ∀ s, zscore st.zset jobId = some s →
      (cancel st jobId).zset.length + 1 = st.zset.length) := by
  refine ⟨?_, ?_, ?_, ?_, ?_⟩
  · intro h
    rw [cancel, zrem_eq_self_of_absent st.zset jobId h]
  · exact zscore_zrem_self st.zset jobId
  · intro m hm
    exact zscore_zrem_other st.zset jobId m hm
  · have h2 : zrem (zrem st.zset jobId) jobId = zrem st.zset jobId :=
      zrem_eq_self_of_absent _ jobId (zscore_zrem_self st.zset jobId)
    show ({ st with zset := zrem (zrem st.zset jobId) jobId } : Store) =
      { st with zset := zrem st.zset jobId }
    rw [h2]
  · intro hnd s hs
    have h1 := zrem_length_add st.zset jobId
    rw [entriesFor_of_nodup_lookup st.zset jobId s hnd hs] at h1
    simpa using h1

/-- C10 witness: cancelling absent id 2 leaves the one-entry store unchanged,
    and cancelling present id 1 shrinks it by exactly one entry. -/
theorem C10_cancel_idempotent_witness :
    cancel storeOrphan 2 = storeOrphan ∧
    (cancel storeOrphan 1).zset.length + 1 = storeOrphan.zset.length :=
  ⟨(C10_cancel_idempotent storeOrphan 2).1 rfl,
   (C10_cancel_idempotent storeOrphan 1).2.2.2.2 (by unfold keysNodup; decide) 5 rfl⟩

/-- C3 (counterexample): in a store whose schedule set holds id 1 at score 5
    with no job record for it, count(until=10) is 1 while get_jobs(until=10)
    returns no jobs (the orphan is purged), so the two disagree. -/
theorem C3_counterexample :
    count storeOrphan (some 10) = 1 ∧
    (get_jobs storeOrphan (some 10)).1.length = 0 ∧
    count storeOrphan (some 10) ≠ (get_jobs storeOrphan (some 10)).1.length := by
  refine ⟨rfl, rfl, by decide⟩

/-- C3 (amended): when every id in the schedule store has an existing job
    record, count(until=T) equals the length of get_jobs(until=T), for every
    bound T including the unbounded case. -/
theorem C3_count_eq_get_jobs_length (st : Store) (untilT : Option Int)
    (h : ∀ e ∈ st.zset, (fetchJob st.jobs e.1).isSome = true) :
    count st untilT = (get_jobs st untilT).1.length := by
  have hids : ∀ e ∈ zrangebyscore st.zset untilT, (fetchJob st.jobs e.1).isSome = true := by
    intro e he
    rw [zrangebyscore] at he
    exact h e (List.mem_filter.mp (mem_sortByScore e _ he)).1
  have hg : (get_jobs st untilT).1 =
      (get_jobs_go st.jobs (zrangebyscore st.zset untilT) st.zset).1 := rfl
  rw [hg, get_jobs_go_length st.jobs _ st.zset hids]
  rw [count, zcount, zrangebyscore, length_sortByScore]

/-- C3 witness: with both scheduled ids backed by records, count and the
    length of get_jobs agree at bound 10. -/
theorem C3_count_eq_get_jobs_length_witness :
    count storeTwoDue (some 10) = (get_jobs storeTwoDue (some 10)).1.length :=
  C3_count_eq_get_jobs_length storeTwoDue (some 10) (by decide)

/-- C1 (counterexample): with two due one-shot jobs (id 1 at score 5, id 2 at
    score 6, current time 10) and a dispatch queue that fails on id 1, the
    pass raises on the first job, and job 2 — though due — is neither
    dispatched (nothing queued) nor removed nor rescheduled (score still 6):
    the failure does prevent the remaining due job from being processed. -/
theorem C1_counterexample :
    (enqueue_jobs (fun i => i == 1) 10 (fun _ => 0) 60 storeTwoDue).1 = some 1 ∧
    (enqueue_jobs (fun i => i == 1) 10 (fun _ => 0) 60 storeTwoDue).2.queued = [] ∧
    zscore (enqueue_jobs (fun i => i == 1) 10 (fun _ => 0) 60 storeTwoDue).2.zset 2 = some 6 := by
  refine ⟨rfl, rfl, rfl⟩

/-- C1 (amended): the dispatch loop of enqueue_jobs has no per-job exception
    handling, so a dispatch failure for one due job aborts the pass: if every
    job before f dispatches cleanly and f's dispatch fails, the loop stops at
    f with the exception propagating, the store reflecting exactly the jobs
    processed before f — f and all later due jobs are untouched this pass. -/
theorem C1_dispatch_failure_aborts_pass (fail : Nat → Bool) (now : Int)
    (cronNext : Nat → Int) (st : Store) (pre : List Job) (f : Job) (post : List Job)
    (hpre : ∀ j ∈ pre, fail j.id = false) (hf : fail f.id = true) :
    enqueue_jobs_loop fail now cronNext st (pre ++ f :: post) =
      (some f.id, processAll now cronNext st pre) := by
  revert hpre
  induction pre generalizing st with
  | nil =>
    intro _
    rw [List.nil_append]
    simp [enqueue_jobs_loop, enqueue_jobF, decRepeat_id, hf, processAll]
  | cons j rest ih =>
    intro hpre
    have hj : fail j.id = false := hpre j (List.mem_cons_self j rest)
    rw [List.cons_append]
    simp only [enqueue_jobs_loop, enqueue_jobF, decRepeat_id, hj, Bool.false_eq_true,
      if_false, processAll, List.foldl_cons]
    exact ih (enqueue_job now cronNext st j) (fun x hx => hpre x (List.mem_cons_of_mem j hx))

/-- C1 witness for the amended statement: failing on the very first due job
    (id 1) leaves the two-entry store exactly as it was. -/
theorem C1_dispatch_failure_aborts_pass_witness :
    enqueue_jobs_loop (fun i => i == 1) 10 (fun _ => 0) storeTwoDue
      [plainJob 1, plainJob 2] = (some 1, storeTwoDue) :=
  C1_dispatch_failure_aborts_pass (fun i => i == 1) 10 (fun _ => 0) storeTwoDue
    [] (plainJob 1) [plainJob 2] (by intro j hj; cases hj) rfl

/-- C4: firing a job carrying a fixed non-zero interval and repeat counter
    n >= 1 decrements the counter before deciding recurrence: the dispatched
    copy carries n - 1; if the counter reached 0 the job is dropped from the
    schedule store, otherwise it is reinserted due at now + interval. In the
    concrete scenario interval=10, repeats=2 scheduled at 100 the job fires
    exactly 2 times, being reinserted once at 110 with repeats=1. -/
theorem C4_fixed_interval_recurrence (st : Store) (j : Job) (now n i : Int)
    (cronNext : Nat → Int) (hI : j.interval = some i) (hi : i ≠ 0)
    (hr : j.«repeat» = some n) (hn : 1 ≤ n) :
    (decRepeat j).«repeat» = some (n - 1) ∧
    (enqueue_job now cronNext st j).queued = st.queued ++ [decRepeat j] ∧
    (n = 1 → zscore (enqueue_job now cronNext st j).zset j.id = none) ∧
    (1 < n → zscore (enqueue_job now cronNext st j).zset j.id = some (now + i)) ∧
    totalFirings (fun _ => 0) 3 storeFixed jobFixed = 2 ∧
    (enqueue_job 100 (fun _ => 0) storeFixed jobFixed).zset = [(1, 110)] ∧
    (decRepeat jobFixed).«repeat» = some 1 := by
  have hnz : n ≠ 0 := by omega
  have hdec : (decRepeat j).«repeat» = some (n - 1) := by
    simp [decRepeat, hr, hnz]
  have htr : truthyInt j.interval = true := by
    simp [truthyInt, hI, bne_iff_ne, hi]
  refine ⟨hdec, ?_, ?_, ?_, by decide, by decide, by decide⟩
  · simp only [enqueue_job]
    split_ifs <;> rfl
  · intro h1
    have hguard : (j.«repeat».isSome && ((decRepeat j).«repeat» == some 0)) = true := by
      rw [hr, hdec, h1]
      decide
    have hz : (enqueue_job now cronNext st j).zset = zrem st.zset j.id := by
      simp [enqueue_job, htr, hguard, decRepeat_id]
    rw [hz]
    exact zscore_zrem_self st.zset j.id
  · intro h2
    have hguard : (j.«repeat».isSome && ((decRepeat j).«repeat» == some 0)) = false := by
      rw [hr, hdec]
      simp [show n - 1 ≠ 0 by omega]
    have hz : (enqueue_job now cronNext st j).zset =
        zaddUpdate (zrem st.zset j.id) j.id (now + i) := by
      simp [enqueue_job, hguard, decRepeat_id, hI, truthyInt, bne_iff_ne, hi]
    rw [hz]
    exact listLookup_listUpsert_self _ j.id (now + i)

/-- C4 witness: the interval=10, repeats=2 job at time 100 has its dispatched
    copy at repeats=1 and is reinserted due at 110. -/
theorem C4_fixed_interval_recurrence_witness :
    (decRepeat jobFixed).«repeat» = some 1 ∧
    zscore (enqueue_job 100 (fun _ => 0) storeFixed jobFixed).zset jobFixed.id =
      some 110 :=
  ⟨(C4_fixed_interval_recurrence storeFixed jobFixed 100 2 10 (fun _ => 0)
      rfl (by decide) rfl (by decide)).1,
   (C4_fixed_interval_recurrence storeFixed jobFixed 100 2 10 (fun _ => 0)
      rfl (by decide) rfl (by decide)).2.2.2.1 (by decide)⟩

/-- C7: a firing that leaves the repeat counter at 0 never reinserts the job:
    whatever recurrence the job carries (interval, cron, or none), when the
    decremented counter is 0 the firing ends with the job removed from the
    schedule store and not rescheduled. -/
theorem C7_no_reinsert_at_zero (st : Store) (j : Job) (now : Int)
    (cronNext : Nat → Int) (h : (decRepeat j).«repeat» = some 0) :
    zscore (enqueue_job now cronNext st j).zset j.id = none := by
  cases hj : j.«repeat» with
  | none => simp [decRepeat, hj] at h
  | some r =>
    have hsome : j.«repeat».isSome = true := by rw [hj]; rfl
    have hguard : (j.«repeat».isSome && ((decRepeat j).«repeat» == some 0)) = true := by
      simp [hsome, h]
    have hz : (enqueue_job now cronNext st j).zset = zrem st.zset j.id := by
      simp only [enqueue_job, hguard, decRepeat_id]
      split_ifs <;> rfl
    rw [hz]
    exact zscore_zrem_self st.zset j.id

/-- C7 witness: a cron job whose counter decrements to 0 (repeat=1) is
    removed and not rescheduled. -/
theorem C7_no_reinsert_at_zero_witness :
    zscore (enqueue_job 100 (fun _ => 200)
      { jobs := [], zset := [(4, 50)], queued := [], schedulerExpiry := none }
      { id := 4, origin := 0, interval := none, «repeat» := some 1,
        cron_string := some 9, result_ttl := some (-1) }).zset 4 = none :=
  C7_no_reinsert_at_zero
    { jobs := [], zset := [(4, 50)], queued := [], schedulerExpiry := none }
    { id := 4, origin := 0, interval := none, «repeat» := some 1,
      cron_string := some 9, result_ttl := some (-1) }
    100 (fun _ => 200) (by decide)

theorem cet_head_absent (jobId : Nat) (t : Int) (a : ZSet × Bool)
    (rest : List (ZSet × Bool)) (habs : zscore a.1 jobId = none) :
    change_execution_time jobId t (a :: rest) = .notScheduled := by
  cases rest with
  | nil => rw [change_execution_time, if_pos (by rw [habs]; rfl)]
  | cons b rest2 => rw [change_execution_time, if_pos (by rw [habs]; rfl)]

theorem cet_ok_inv (jobId : Nat) (t : Int) (trace : List (ZSet × Bool)) :
    ∀ z2, change_execution_time jobId t trace = .ok z2 →
      ∃ s, (s, false) ∈ trace ∧ (zscore s jobId).isSome = true ∧
        z2 = zaddUpdate s jobId t := by
  induction trace with
  | nil =>
    intro z2 hz
    rw [change_execution_time] at hz
    cases hz
  | cons a rest ih =>
    intro z2 hz
    cases rest with
    | nil =>
      rw [change_execution_time] at hz
      by_cases habs : (zscore a.1 jobId).isNone = true
      · rw [if_pos habs] at hz
        cases hz
      · rw [if_neg habs] at hz
        by_cases hc : a.2 = true
        · rw [if_pos hc] at hz
          cases hz
        · rw [if_neg hc] at hz
          have hcf : a.2 = false := by
            cases h2 : a.2
            · rfl
            · exact absurd h2 hc
          have hsm : (zscore a.1 jobId).isSome = true := by
            cases ho : zscore a.1 jobId with
            | none => exact absurd (by rw [ho]; rfl) habs
            | some v => rfl
          have hpa : (a.1, false) = a := by rw [← hcf]
          injection hz with hz2
          exact ⟨a.1, hpa ▸ List.mem_cons_self _ _, hsm, hz2.symm⟩
    | cons b rest2 =>
      rw [change_execution_time] at hz
      by_cases habs : (zscore a.1 jobId).isNone = true
      · rw [if_pos habs] at hz
        cases hz
      · rw [if_neg habs] at hz
        by_cases hc : a.2 = true
        · rw [if_pos hc] at hz
          by_cases habs2 : (zscore b.1 jobId).isNone = true
          · rw [if_pos habs2] at hz
            cases hz
          · rw [if_neg habs2] at hz
            obtain ⟨s3, hmem, hs3, heq⟩ := ih z2 hz
            exact ⟨s3, List.mem_cons_of_mem _ hmem, hs3, heq⟩
        · rw [if_neg hc] at hz
          have hcf : a.2 = false := by
            cases h2 : a.2
            · rfl
            · exact absurd h2 hc
          have hsm : (zscore a.1 jobId).isSome = true := by
            cases ho : zscore a.1 jobId with
            | none => exact absurd (by rw [ho]; rfl) habs
            | some v => rfl
          have hpa : (a.1, false) = a := by rw [← hcf]
          injection hz with hz2
          exact ⟨a.1, hpa ▸ List.mem_cons_self _ _, hsm, hz2.symm⟩

/-- C6: change_execution_time on a job absent from the schedule store raises
    the not-scheduled error; when the job is absent from every state the
    optimistic watch/retry loop observes, it errors and never writes; and a
    successful return can only arise by committing the score upsert against
    an observed state that still contained the job, with no conflict — after
    a conflict the loop re-checks membership and retries only while present. -/
theorem C6_change_execution_time (jobId : Nat) (t : Int)
    (trace : List (ZSet × Bool)) :
    (∀ p, trace.head? = some p → zscore p.1 jobId = none →
      change_execution_time jobId t trace = .notScheduled) ∧
    ((∀ p ∈ trace, zscore p.1 jobId = none) → trace ≠ [] →
      change_execution_time jobId t trace = .notScheduled) ∧
    (∀ z2, change_execution_time jobId t trace = .ok z2 →
      ∃ s, (s, false) ∈ trace ∧ (zscore s jobId).isSome = true ∧
        z2 = zaddUpdate s jobId t) := by
  refine ⟨?_, ?_, cet_ok_inv jobId t trace⟩
  · intro p hp habs
    cases trace with
    | nil => simp at hp
    | cons a rest =>
      rw [List.head?_cons] at hp
      injection hp with hp2
      rw [← hp2] at habs
      exact cet_head_absent jobId t a rest habs
  · intro hall hne
    cases trace with
    | nil => exact absurd rfl hne
    | cons a rest =>
      exact cet_head_absent jobId t a rest (hall a (List.mem_cons_self _ _))

/-- C6 witness: a job absent from the observed store state makes
    change_execution_time raise the not-scheduled error. -/
theorem C6_change_execution_time_witness :
    change_execution_time 7 9 [([], false)] = .notScheduled :=
  (C6_change_execution_time 7 9 [([], false)]).1 ([], false) rfl rfl

end RqScheduler
